import Mathlib

/-!
A shallow embedding, in Lean 4, of the core rules engine of the bridge_game
repository (src/core/deck.py and src/core/game.py), together with theorems
settling the frozen claims about its specification.

Python strings are modelled as `List Char`; Python `int` values as `Nat`
(all the quantities involved are non-negative) except where a `-1` sentinel
forces `Int`; Python `None` as `Option.none`; methods returning a success
flag as functions returning `Bool × GameState` (the boolean result and the
state after the call).  Seats are `Fin 4`, matching the data model's four
seats indexed 0..3.
-/

namespace Bridge

/-- Suits of cards, `Card.suit ∈ {S, H, D, C}` in deck.py. -/
inductive Suit where
  | S | H | D | C
deriving DecidableEq, Repr

/-- `Card` from deck.py: a suit and a value 2..14 (14 = Ace).  The
constructor validates the range; we carry the value as a plain `Nat` and
state the 2..14 bound as a hypothesis where it matters. -/
structure Card where
  suit : Suit
  value : Nat
deriving DecidableEq, Repr

/-- Bid denominations (strains) `C, D, H, S, NT` from game.py. -/
inductive Denom where
  | C | D | H | S | NT
deriving DecidableEq, Repr

/-- `Bid.DENOMINATIONS[d]['rank']` in game.py. -/
def Denom.rank : Denom → Nat
  | .C => 1
  | .D => 2
  | .H => 3
  | .S => 4
  | .NT => 5

/-- `Bid` from game.py.  The Python class stores a `BidType` plus optional
level/denomination; the constructor enforces that NORMAL bids carry both.
We model the well-formed values as a variant type.  The level-range check
(1..7) performed by the Python constructor is stated separately as
`Bid.Constructible`. -/
inductive Bid where
  | pass
  | normal (level : Nat) (denom : Denom)
  | double
  | redouble
deriving DecidableEq, Repr

/-- The values that `Bid.__init__` accepts without raising: a NORMAL bid
needs `1 <= level <= 7` (the denomination is valid by construction here). -/
def Bid.Constructible : Bid → Prop
  | .normal l _ => 1 ≤ l ∧ l ≤ 7
  | _ => True

instance : DecidablePred Bid.Constructible := by
  intro b
  cases b <;> simp [Bid.Constructible] <;> infer_instance

/-- Whether a bid is a NORMAL bid (`bid.bid_type == BidType.NORMAL`). -/
def Bid.isNormal : Bid → Bool
  | .normal _ _ => true
  | _ => false

/-- `Bid.__lt__` from game.py, translated branch by branch:
Pass is below everything except Pass; Double is below exactly Redouble;
Redouble is below nothing; NORMAL bids compare by level then denomination
rank against NORMAL bids and are below nothing else. -/
def Bid.lt : Bid → Bid → Bool
  | .pass, other => other != .pass
  | .double, other => other == .redouble
  | .redouble, _ => false
  | .normal l d, .normal l2 d2 =>
      if l < l2 then true
      else if l2 < l then false
      else decide (d.rank < d2.rank)
  | .normal _ _, _ => false

/-- `Bid.__gt__` from game.py: `other < self and not self == other`. -/
def Bid.gt (a b : Bid) : Bool := Bid.lt b a && !(a == b)

/-- Python `str.strip()` (restricted to ASCII whitespace, which covers every
character the engine's bid grammar can meet). -/
def pyStrip (s : List Char) : List Char :=
  ((s.dropWhile Char.isWhitespace).reverse.dropWhile Char.isWhitespace).reverse

/-- Python `str.lower()` (ASCII case folding; no character of the bid
grammar is a non-ASCII cased letter). -/
def pyLower (s : List Char) : List Char := s.map Char.toLower

/-- The symbol used by `Bid.__str__` for a denomination
(`Bid.DENOMINATIONS[d]['symbol']`). -/
def Denom.symbolChars : Denom → List Char
  | .C => ['♣']
  | .D => ['♦']
  | .H => ['♥']
  | .S => ['♠']
  | .NT => ['N', 'T']

/-- The single digit character of a bid level 1..7, as produced by the
f-string `f"{level}{denom_symbol}"`. -/
def levelChar (l : Nat) : Char := Char.ofNat (48 + l)

/-- `Bid.__str__` from game.py. -/
def Bid.toStr : Bid → List Char
  | .pass => ['P', 'a', 's', 's']
  | .double => ['D', 'o', 'u', 'b', 'l', 'e']
  | .redouble => ['R', 'e', 'd', 'o', 'u', 'b', 'l', 'e']
  | .normal l d => levelChar l :: d.symbolChars

/-- The second-character lookup of `Bid.from_string`: first the letter test
`bid_str[1] in "CDHS"`, then the `symbol_to_letter` fallback table. -/
def denomOfChar (c : Char) : Option Denom :=
  if c = 'C' then some .C
  else if c = 'D' then some .D
  else if c = 'H' then some .H
  else if c = 'S' then some .S
  else if c = '♣' then some .C
  else if c = '♦' then some .D
  else if c = '♥' then some .H
  else if c = '♠' then some .S
  else none

/-- `Bid.from_string` from game.py.  A Python `ValueError` (raised either
directly, by `int(bid_str[0])` on a non-digit, or by the `Bid` constructor
when the level is outside 1..7) is modelled as `Except.error ()`. -/
def Bid.from_string (s : List Char) : Except Unit Bid :=
  let t := pyStrip s
  if pyLower t = ['p', 'a', 's', 's'] then .ok .pass
  else if pyLower t = ['d', 'o', 'u', 'b', 'l', 'e'] then .ok .double
  else if pyLower t = ['r', 'e', 'd', 'o', 'u', 'b', 'l', 'e'] then .ok .redouble
  else if t.length < 2 then .error ()
  else
    match t with
    | [] => .error ()
    | c :: rest =>
      if c.isDigit then
        let level := c.toNat - 48
        let dn : Option Denom :=
          if rest = ['N', 'T'] then some .NT
          else
            match rest with
            | [] => none
            | d :: _ => denomOfChar d
        match dn with
        | none => .error ()
        | some denom =>
          if 1 ≤ level ∧ level ≤ 7 then .ok (.normal level denom) else .error ()
      else .error ()

/-- The three values of `BridgeGame.current_state` that the engine assigns
(the strings "bidding", "playing", "game_over"). -/
inductive GState where
  | bidding | playing | game_over
deriving DecidableEq, Repr

/-- The three values of `BridgeGame.double_status`
(the strings "none", "doubled", "redoubled"). -/
inductive DoubleStatus where
  | none | doubled | redoubled
deriving DecidableEq, Repr

/-- One entry of `BridgeGame.game_history`, as appended by `play_card`:
the dict `{"player": player_idx, "card": card, "trick": len(history) // 4}`.
No other code in the repository appends to or mutates `game_history`. -/
structure HistEntry where
  player : Fin 4
  card : Card
  trick : Nat
deriving DecidableEq, Repr

/-- `play.get('winner', False)` as evaluated by `_score_hand`: the dicts in
`game_history` are created only by `play_card` and carry exactly the keys
`player`, `card` and `trick`, so the lookup of the `winner` key always
falls through to the default `False`. -/
def HistEntry.winnerFlag (_ : HistEntry) : Bool := false

/-- The mutable state of a `BridgeGame` instance, restricted to the fields
the core engine reads or writes (GUI-only fields are omitted).  `hands i`
is `players[i]["hand"]`; `contract` is the Python contract *string* (for
example `['1','H','X']`), kept as text exactly as the source stores it;
`scores` is the `scores` attribute created by `_score_hand` (absent until
then). -/
structure GameState where
  hands : Fin 4 → List Card
  current_player : Fin 4
  trick : List (Fin 4 × Card)
  contract : Option (List Char)
  current_state : GState
  game_history : List HistEntry
  last_trick_winner : Option (Fin 4)
  last_complete_trick : Option (List (Fin 4 × Card))
  bidding_history : List (Fin 4 × Bid)
  current_bidder : Fin 4
  last_bid : Option Bid
  double_status : DoubleStatus
  declarer : Option (Fin 4)
  dummy : Option (Fin 4)
  scores : Option (Nat × Nat)

/-- The state of a freshly constructed `BridgeGame` after `new_game()`:
every bookkeeping field reset, hands as dealt (arbitrary here — dealing is
a uniform shuffle the claims do not constrain). -/
def initState (hands : Fin 4 → List Card) : GameState where
  hands := hands
  current_player := 0
  trick := []
  contract := none
  current_state := .bidding
  game_history := []
  last_trick_winner := none
  last_complete_trick := none
  bidding_history := []
  current_bidder := 0
  last_bid := none
  double_status := .none
  declarer := none
  dummy := none
  scores := none

/-- The Python loop `for entry in reversed(self.bidding_history): if
entry["bid"].bid_type == BidType.NORMAL: last_bidder = entry["player"];
break` used by `is_valid_bid` (every history entry holds a `Bid`, so the
`isinstance` guard is always true). -/
def lastNormalBidder (hist : List (Fin 4 × Bid)) : Option (Fin 4) :=
  match hist.reverse.find? (fun e => e.2.isNormal) with
  | some e => some e.1
  | none => none

/-- `BridgeGame.is_valid_bid` from game.py, translated branch by branch.
A `Bid` object is always truthy in Python, so `if not self.last_bid`
means `last_bid is None`. -/
def is_valid_bid (st : GameState) (bid : Bid) : Bool :=
  match bid with
  | .pass => true
  | .double =>
    match st.last_bid with
    | Option.none => false
    | some _ =>
      match lastNormalBidder st.bidding_history with
      | Option.none => false
      | some lb =>
        if st.current_bidder.val % 2 = lb.val % 2 then false
        else st.double_status == .none
  | .redouble =>
    if st.double_status != .doubled then false
    else
      match lastNormalBidder st.bidding_history with
      | Option.none => false
      | some lb => st.current_bidder.val % 2 == lb.val % 2
  | .normal l d =>
    match st.last_bid with
    | some lb => Bid.gt (.normal l d) lb
    | Option.none => true

/-- `BridgeGame._is_bidding_complete` from game.py. -/
def is_bidding_complete (hist : List (Fin 4 × Bid)) : Bool :=
  if hist.length < 4 then false
  else if hist.length == 4 && hist.all (fun e => e.2 == .pass) then true
  else
    -- Python hist[-3:] on a list of length >= 4 is the last three entries
    let last_three := hist.drop (hist.length - 3)
    (last_three.all (fun e => e.2 == .pass)) && (hist.any (fun e => e.2 != .pass))

/-- The contract-string denomination text in `_finalize_contract`
(`f"{level}{strain}{suffix}"` uses the denomination *letters*). -/
def Denom.letterChars : Denom → List Char
  | .C => ['C']
  | .D => ['D']
  | .H => ['H']
  | .S => ['S']
  | .NT => ['N', 'T']

/-- The Python loop of `_finalize_contract` that finds the last NORMAL bid
and its bidder in `reversed(bidding_history)`. -/
def lastNormalEntry (hist : List (Fin 4 × Bid)) : Option (Fin 4 × Nat × Denom) :=
  match hist.reverse.find? (fun e => e.2.isNormal) with
  | some (p, .normal l d) => some (p, l, d)
  | _ => Option.none

/-- `BridgeGame._finalize_contract` from game.py: resets contract, declarer
and dummy; on an all-pass auction stops there; otherwise builds the
contract string, picks as declarer the first seat of the last normal
bidder's partnership to have named the contract strain, sets dummy to the
declarer's partner and `current_player` to the declarer's left-hand
opponent. -/
def finalize_contract (st : GameState) : GameState :=
  let st := { st with contract := Option.none, declarer := Option.none, dummy := Option.none }
  if st.bidding_history.all (fun e => e.2 == .pass) then st
  else
    match lastNormalEntry st.bidding_history with
    | Option.none => st  -- logged as an error in the source; state left as reset
    | some (lnb_player, level, strain) =>
      let suffix : List Char :=
        match st.double_status with
        | .doubled => ['X']
        | .redoubled => ['X', 'X']
        | .none => []
      let contract_str := levelChar level :: (strain.letterChars ++ suffix)
      let partnership := lnb_player.val % 2
      let strain_bidders := st.bidding_history.filterMap (fun e =>
        match e with
        | (p, .normal _ d) =>
          if p.val % 2 = partnership ∧ d = strain then some p else Option.none
        | _ => Option.none)
      let declarer := strain_bidders.headD lnb_player
      let dummy : Fin 4 := declarer + 2
      { st with
          contract := some contract_str
          declarer := some declarer
          dummy := some dummy
          current_player := declarer + 1 }

/-- `BridgeGame.place_bid` from game.py, specialised to a `Bid` argument
(the `isinstance(bid, str)` branch is `place_bid_str` below).  Note that
the `current_bidder`/`current_player` advancement happens *after*
`_finalize_contract`, overwriting the `current_player` the latter sets. -/
def place_bid (st : GameState) (player_idx : Fin 4) (bid : Bid) : Bool × GameState :=
  if st.current_state ≠ .bidding ∨ player_idx ≠ st.current_bidder then (false, st)
  else if ¬ is_valid_bid st bid then (false, st)
  else
    let st1 := { st with bidding_history := st.bidding_history ++ [(player_idx, bid)] }
    let st2 :=
      match bid with
      | .normal _ _ => { st1 with last_bid := some bid, double_status := .none }
      | .double => { st1 with double_status := .doubled }
      | .redouble => { st1 with double_status := .redoubled }
      | .pass => st1
    let st3 :=
      if is_bidding_complete st2.bidding_history then
        { finalize_contract st2 with current_state := .playing }
      else st2
    let st4 := { st3 with
        current_bidder := st3.current_bidder + 1,
        current_player := st3.current_bidder + 1 }
    (true, st4)

/-- `BridgeGame.place_bid` from game.py when called with a *string* bid:
the state/turn guard runs first, then `Bid.from_string`; a `ValueError`
from parsing is caught and reported as `False`. -/
def place_bid_str (st : GameState) (player_idx : Fin 4) (s : List Char) : Bool × GameState :=
  if st.current_state ≠ .bidding ∨ player_idx ≠ st.current_bidder then (false, st)
  else
    match Bid.from_string s with
    | .error _ => (false, st)
    | .ok b => place_bid st player_idx b

/-- The suit named by a contract-string character, for the membership test
`self.contract[1] in "SHDC"` of `_determine_trick_winner`. -/
def suitOfChar (c : Char) : Option Suit :=
  if c = 'S' then some .S
  else if c = 'H' then some .H
  else if c = 'D' then some .D
  else if c = 'C' then some .C
  else Option.none

/-- The trump-suit extraction at the top of `_determine_trick_winner`:
`if self.contract:` (a non-empty string is truthy) then the character at
index 1 is the trump suit when it is one of "SHDC" (for a No-Trump
contract that character is 'N', so no trump).  The `elif` arm of the
source is unreachable (its guard repeats `contract[1] in "SHDC"`), and is
subsumed here. -/
def trumpOfContract : Option (List Char) → Option Suit
  | Option.none => Option.none
  | some cs =>
    if cs.length ≥ 2 then
      match cs.get? 1 with
      | some c => suitOfChar c
      | Option.none => Option.none
    else Option.none

/-- `BridgeGame._is_valid_play` from game.py: a lead is always valid; a
follow must match the led suit whenever the player still holds a card of
that suit. -/
def is_valid_play (st : GameState) (player_idx : Fin 4) (card : Card) : Bool :=
  match st.trick with
  | [] => true
  | first :: _ =>
    let led_suit := first.2.suit
    let player_hand := st.hands player_idx
    let has_led_suit := player_hand.any (fun c => c.suit == led_suit)
    if has_led_suit then card.suit == led_suit else true

/-- The no-trump loop of `_determine_trick_winner`: fold over the trick
tracking `(highest_value, winner)`, starting from the sentinel `-1`;
only cards of the led suit are considered. -/
def ntStep (led_suit : Suit) (acc : Int × Option (Fin 4)) (play : Fin 4 × Card) :
    Int × Option (Fin 4) :=
  if play.2.suit = led_suit then
    if acc.1 = -1 ∨ (play.2.value : Int) > acc.1 then ((play.2.value : Int), some play.1)
    else acc
  else acc

/-- The trump-branch loop of `_determine_trick_winner`: fold tracking
`(highest_trump_value, trump_winner, highest_led_value, led_suit_winner)`;
a trump card feeds the first pair, and (via the `elif`) a non-trump card
of the led suit feeds the second. -/
def trumpStep (trump_suit led_suit : Suit) (acc : Int × Option (Fin 4) × Int × Option (Fin 4))
    (play : Fin 4 × Card) : Int × Option (Fin 4) × Int × Option (Fin 4) :=
  let (htv, tw, hlv, lw) := acc
  if play.2.suit = trump_suit then
    if (play.2.value : Int) > htv then ((play.2.value : Int), some play.1, hlv, lw) else acc
  else if play.2.suit = led_suit then
    if (play.2.value : Int) > hlv then (htv, tw, (play.2.value : Int), some play.1) else acc
  else acc

/-- `BridgeGame._determine_trick_winner` from game.py.  `None` is returned
for a malformed trick (empty or not 4 plays) and, in principle, when no
card qualifies — which cannot happen for a real trick, whose first card
fixes the led suit. -/
def determine_trick_winner (contract : Option (List Char))
    (trick : List (Fin 4 × Card)) : Option (Fin 4) :=
  match trick with
  | [] => Option.none
  | first :: _ =>
    if trick.length ≠ 4 then Option.none
    else
      let trump_suit := trumpOfContract contract
      let led_suit := first.2.suit
      match trump_suit with
      | Option.none =>
        (trick.foldl (ntStep led_suit) (-1, Option.none)).2
      | some ts =>
        let r := trick.foldl (trumpStep ts led_suit) (-1, Option.none, -1, Option.none)
        match r.2.1 with
        | some tw => some tw
        | Option.none => r.2.2.2

/-- Python `list.remove(x)`: delete the first occurrence (always called
after a membership check here). -/
def removeFirst (c : Card) : List Card → List Card
  | [] => []
  | x :: t => if x = c then t else x :: removeFirst c t

/-- `BridgeGame._score_hand` from game.py: walk `game_history` four
entries at a time; in each chunk look for an entry whose `winner` key is
truthy (none ever is — see `HistEntry.winnerFlag`), skip the chunk when no
winner is found, otherwise credit the winner's partnership. -/
def score_hand (gh : List HistEntry) : Nat × Nat :=
  scoreAux gh (0, 0)
where
  scoreAux : List HistEntry → Nat × Nat → Nat × Nat
  | a :: b :: c :: d :: rest, (ns, ew) =>
    -- a full chunk gh[i:i+4] of four plays
    let trick := [a, b, c, d]
    let winner : Option (Fin 4) :=
      trick.findSome? (fun play => if play.winnerFlag then some play.player else Option.none)
    match winner with
    | Option.none => scoreAux rest (ns, ew)
    | some w =>
      if w = 0 ∨ w = 2 then scoreAux rest (ns + 1, ew) else scoreAux rest (ns, ew + 1)
  | _, acc => acc
    -- a trailing chunk of fewer than 4 plays is skipped (`continue`),
    -- after which the loop ends

/-- `BridgeGame.play_card` from game.py.  The guards, in source order:
wrong phase; a lead by a seat other than the recorded last trick winner
(skipped when no winner is recorded yet — i.e. on the first trick); a
follow by a seat other than `current_player`; a card not in hand; a
follow-suit violation.  On the fourth card of a trick the winner is
resolved, takes the next lead, the trick buffer is archived and cleared,
and — once every hand is empty — the hand is scored and the state becomes
`game_over`. -/
def play_card (st : GameState) (player_idx : Fin 4) (card : Card) : Bool × GameState :=
  if st.current_state ≠ .playing then (false, st)
  else if st.trick.isEmpty ∧ st.last_trick_winner.isSome ∧
      st.last_trick_winner ≠ some player_idx then (false, st)
  else if ¬ st.trick.isEmpty ∧ player_idx ≠ st.current_player then (false, st)
  else if card ∉ st.hands player_idx then (false, st)
  else if ¬ is_valid_play st player_idx card then (false, st)
  else
    let hands1 := fun i => if i = player_idx then removeFirst card (st.hands i) else st.hands i
    let trick1 := st.trick ++ [(player_idx, card)]
    let gh1 := st.game_history ++
      [{ player := player_idx, card := card, trick := st.game_history.length / 4 }]
    let st1 := { st with hands := hands1, trick := trick1, game_history := gh1 }
    if trick1.length = 4 then
      match determine_trick_winner st1.contract trick1 with
      | some winner =>
        let st2 := { st1 with
            current_player := winner
            last_trick_winner := some winner
            last_complete_trick := some trick1
            trick := [] }
        if (List.finRange 4).all (fun i => (st2.hands i).isEmpty) then
          (true, { st2 with scores := some (score_hand st2.game_history),
                            current_state := .game_over })
        else (true, st2)
      | Option.none =>
        -- unreachable for a real trick: the lead card itself always
        -- qualifies as a candidate winner (see `winner_isSome` below)
        (true, st1)
    else
      (true, { st1 with current_player := st1.current_player + 1 })

/-- Fold a list of bids through `place_bid`, keeping only the state (a
caller issuing calls in sequence and ignoring the returned flags). -/
def runBids (st : GameState) (bs : List (Fin 4 × Bid)) : GameState :=
  bs.foldl (fun s e => (place_bid s e.1 e.2).2) st

/-- Fold a list of card plays through `play_card`, keeping only the state. -/
def runPlays (st : GameState) (ps : List (Fin 4 × Card)) : GameState :=
  ps.foldl (fun s e => (play_card s e.1 e.2).2) st

/-- All thirteen cards of one suit (a deliberately simple legal deal used
for concrete executions: each seat holds one entire suit). -/
def suitHand (s : Suit) : List Card := (List.range 13).map (fun i => ⟨s, i + 2⟩)

/-- The concrete deal: South holds all Spades, West all Hearts, North all
Diamonds, East all Clubs. -/
def handsBySuit (i : Fin 4) : List Card :=
  if i = 0 then suitHand .S
  else if i = 1 then suitHand .H
  else if i = 2 then suitHand .D
  else suitHand .C

/-- Auction: South opens 1NT, three passes — contract 1NT by South. -/
def ntAuction : List (Fin 4 × Bid) :=
  [(0, .normal 1 .NT), (1, .pass), (2, .pass), (3, .pass)]

/-- Auction: South opens 1♥, three passes — contract 1♥ by South
(the spec's own example auction). -/
def oneHeartAuction : List (Fin 4 × Bid) :=
  [(0, .normal 1 .H), (1, .pass), (2, .pass), (3, .pass)]

/-- A complete, everywhere-legal play-out of the `handsBySuit` deal under
the 1NT contract: in each trick South leads a Spade and the other seats,
void in Spades, discard.  South wins every trick (the only led-suit card)
and duly leads the next one. -/
def ntPlays : List (Fin 4 × Card) :=
  (List.range 13).flatMap (fun t =>
    [(0, ⟨.S, t + 2⟩), (1, ⟨.H, t + 2⟩), (2, ⟨.D, t + 2⟩), (3, ⟨.C, t + 2⟩)])

/-- The state after the 1NT auction from a fresh deal. -/
def stNT : GameState := runBids (initState handsBySuit) ntAuction

/-- The state after the full 52-card play-out of the 1NT hand. -/
def stFinal : GameState := runPlays stNT ntPlays

/-- The state after the 1♥ auction from a fresh deal. -/
def st1H : GameState := runBids (initState handsBySuit) oneHeartAuction

/-- A universal-pass auction: four passes from the opening seat. -/
def fourPasses : List (Fin 4 × Bid) := [(0, .pass), (1, .pass), (2, .pass), (3, .pass)]

/-- The state after a universal-pass auction from a fresh deal. -/
def stAllPass : GameState := runBids (initState handsBySuit) fourPasses

/-! ### Helper lemmas -/

theorem play_card_rejected_eq (st : GameState) (p : Fin 4) (c : Card) :
    (play_card st p c).1 = false → (play_card st p c).2 = st := by
  intro h
  unfold play_card at h ⊢
  split_ifs at h ⊢ <;> first
    | rfl
    | (dsimp only at h ⊢; split_ifs at h ⊢ <;> split at h <;> simp_all)

theorem place_bid_rejected_eq (st : GameState) (p : Fin 4) (b : Bid) :
    (place_bid st p b).1 = false → (place_bid st p b).2 = st := by
  intro h
  unfold place_bid at h ⊢
  split_ifs at h ⊢ <;> simp_all

theorem place_bid_str_rejected_eq (st : GameState) (p : Fin 4) (s : List Char) :
    (place_bid_str st p s).1 = false → (place_bid_str st p s).2 = st := by
  intro h
  unfold place_bid_str at h ⊢
  split_ifs at h ⊢
  · rfl
  · cases hfs : Bid.from_string s with
    | error e => simp [hfs]
    | ok b =>
      rw [hfs] at h
      exact place_bid_rejected_eq st p b h

/-- Every `play_card` guard passing means the play is accepted (returns
`True`), whatever happens afterwards (trick resolution, hand scoring). -/
theorem play_card_fst_of_guards (st : GameState) (p : Fin 4) (c : Card)
    (h1 : st.current_state = .playing)
    (h2 : ¬(st.trick.isEmpty ∧ st.last_trick_winner.isSome ∧ st.last_trick_winner ≠ some p))
    (h3 : ¬(¬st.trick.isEmpty ∧ p ≠ st.current_player))
    (h4 : c ∈ st.hands p) (h5 : is_valid_play st p c = true) :
    (play_card st p c).1 = true := by
  unfold play_card
  rw [if_neg (by simp [h1]), if_neg h2, if_neg h3, if_neg (by simp [h4]),
    if_neg (by simp [h5])]
  dsimp only
  split_ifs <;> (try rfl) <;> (split <;> rfl)

theorem pass_step1 (hands : Fin 4 → List Card) :
    place_bid (initState hands) 0 .pass =
      (true, { initState hands with
        bidding_history := [(0, .pass)], current_bidder := 1, current_player := 1 }) := rfl

theorem pass_step2 (hands : Fin 4 → List Card) :
    place_bid { initState hands with
        bidding_history := [(0, .pass)], current_bidder := 1, current_player := 1 } 1 .pass =
      (true, { initState hands with
        bidding_history := [(0, .pass), (1, .pass)],
        current_bidder := 2, current_player := 2 }) := rfl

theorem pass_step3 (hands : Fin 4 → List Card) :
    place_bid { initState hands with
        bidding_history := [(0, .pass), (1, .pass)],
        current_bidder := 2, current_player := 2 } 2 .pass =
      (true, { initState hands with
        bidding_history := [(0, .pass), (1, .pass), (2, .pass)],
        current_bidder := 3, current_player := 3 }) := rfl

theorem pass_step4 (hands : Fin 4 → List Card) :
    place_bid { initState hands with
        bidding_history := [(0, .pass), (1, .pass), (2, .pass)],
        current_bidder := 3, current_player := 3 } 3 .pass =
      (true, { initState hands with
        bidding_history := fourPasses,
        current_state := .playing, current_bidder := 0, current_player := 0 }) := rfl

/-- The engine state after a universal-pass auction from any fresh deal:
contract, declarer and dummy stay reset, yet `current_state` becomes
`playing`. -/
theorem runBids_fourPasses (hands : Fin 4 → List Card) :
    runBids (initState hands) fourPasses =
      { initState hands with
        bidding_history := fourPasses,
        current_state := .playing, current_bidder := 0, current_player := 0 } := by
  show (place_bid (place_bid (place_bid (place_bid (initState hands) 0 .pass).2 1 .pass).2
      2 .pass).2 3 .pass).2 = _
  rw [pass_step1, pass_step2, pass_step3, pass_step4]

/-! ### The auction legality rules against the spec's wording -/

/-- Comparison definition following the spec's wording (§4.3): the last
`Normal` call of an auction history, with its bidder. -/
def specLastNormal (hist : List (Fin 4 × Bid)) : Option (Fin 4 × Nat × Denom) :=
  hist.foldl (fun acc e =>
    match e with
    | (p, .normal l d) => some (p, l, d)
    | _ => acc) Option.none

/-- Comparison definition following the spec's wording (§4.3 `is_legal`):
Pass is always legal; a Normal bid must strictly exceed the last Normal
bid under the level-then-strain-rank order; Double needs a last Normal bid
from the other partnership and an undoubled status; Redouble needs a
doubled status and the last Normal bid from one's own partnership. -/
def spec_is_legal (hist : List (Fin 4 × Bid)) (dstat : DoubleStatus) (cur : Fin 4)
    (bid : Bid) : Bool :=
  match bid with
  | .pass => true
  | .normal l d =>
    match specLastNormal hist with
    | Option.none => true
    | some (_, l0, d0) => decide (l0 < l ∨ (l0 = l ∧ Denom.rank d0 < Denom.rank d))
  | .double =>
    match specLastNormal hist with
    | Option.none => false
    | some (q, _, _) => (cur.val % 2 != q.val % 2) && (dstat == .none)
  | .redouble =>
    (dstat == .doubled) &&
      (match specLastNormal hist with
       | Option.none => false
       | some (q, _, _) => cur.val % 2 == q.val % 2)

theorem specLastNormal_append (hist : List (Fin 4 × Bid)) (p : Fin 4) (b : Bid) :
    specLastNormal (hist ++ [(p, b)]) =
      match b with
      | .normal l d => some (p, l, d)
      | _ => specLastNormal hist := by
  unfold specLastNormal
  rw [List.foldl_append]
  cases b <;> rfl

/-- The auction bookkeeping invariant: `last_bid` holds exactly the last
Normal bid of the recorded history (`place_bid` keeps them in sync). -/
def BidInv (st : GameState) : Prop :=
  st.last_bid = (specLastNormal st.bidding_history).map (fun e => Bid.normal e.2.1 e.2.2)

theorem finalize_preserves_bidding (st : GameState) :
    (finalize_contract st).bidding_history = st.bidding_history ∧
    (finalize_contract st).last_bid = st.last_bid := by
  unfold finalize_contract
  dsimp only
  split_ifs
  · exact ⟨rfl, rfl⟩
  · split <;> exact ⟨rfl, rfl⟩

theorem place_bid_guard_rejects (st : GameState) (p : Fin 4) (b : Bid)
    (hG : st.current_state ≠ .bidding ∨ p ≠ st.current_bidder) :
    place_bid st p b = (false, st) := by
  unfold place_bid
  rw [if_pos hG]

theorem place_bid_invalid_rejects (st : GameState) (p : Fin 4) (b : Bid)
    (hG : ¬(st.current_state ≠ .bidding ∨ p ≠ st.current_bidder))
    (hv : is_valid_bid st b = false) :
    place_bid st p b = (false, st) := by
  unfold place_bid
  rw [if_neg hG, if_pos (by simp [hv])]

theorem place_bid_accepted_fields (st : GameState) (p : Fin 4) (b : Bid)
    (hG : ¬(st.current_state ≠ .bidding ∨ p ≠ st.current_bidder))
    (hv : is_valid_bid st b = true) :
    (place_bid st p b).1 = true ∧
    (place_bid st p b).2.bidding_history = st.bidding_history ++ [(p, b)] ∧
    (place_bid st p b).2.last_bid =
      (match b with
       | .normal l d => some (.normal l d)
       | _ => st.last_bid) := by
  unfold place_bid
  rw [if_neg hG, if_neg (by simp [hv])]
  dsimp only
  refine ⟨?_, ?_, ?_⟩ <;>
    (cases b <;> (try split_ifs) <;>
      simp [(finalize_preserves_bidding _).1, (finalize_preserves_bidding _).2])

theorem bidInv_place_bid (st : GameState) (p : Fin 4) (b : Bid) (h : BidInv st) :
    BidInv (place_bid st p b).2 := by
  by_cases hG : st.current_state ≠ .bidding ∨ p ≠ st.current_bidder
  · rw [place_bid_guard_rejects st p b hG]; exact h
  · cases hv : is_valid_bid st b with
    | false => rw [place_bid_invalid_rejects st p b hG hv]; exact h
    | true =>
      obtain ⟨-, h2, h3⟩ := place_bid_accepted_fields st p b hG hv
      unfold BidInv at h ⊢
      rw [h2, h3, specLastNormal_append]
      cases b <;> simp_all

theorem play_card_fields (st : GameState) (p : Fin 4) (c : Card) :
    (play_card st p c).2.bidding_history = st.bidding_history ∧
    (play_card st p c).2.last_bid = st.last_bid ∧
    (play_card st p c).2.double_status = st.double_status ∧
    (play_card st p c).2.current_bidder = st.current_bidder := by
  unfold play_card
  split_ifs <;> try exact ⟨rfl, rfl, rfl, rfl⟩
  all_goals (dsimp only; repeat' split) <;> exact ⟨rfl, rfl, rfl, rfl⟩

theorem find_normal_eq_spec (r : List (Fin 4 × Bid)) :
    r.find? (fun e => e.2.isNormal) =
      (specLastNormal r.reverse).map (fun e => (e.1, Bid.normal e.2.1 e.2.2)) := by
  induction r with
  | nil => rfl
  | cons e t ih =>
    rw [List.find?_cons]
    rw [show (e :: t).reverse = t.reverse ++ [e] by simp]
    obtain ⟨q, b⟩ := e
    cases b <;> simp_all [Bid.isNormal, specLastNormal_append]

theorem lastNormalBidder_eq_spec (hist : List (Fin 4 × Bid)) :
    lastNormalBidder hist = (specLastNormal hist).map (fun e => e.1) := by
  unfold lastNormalBidder
  rw [show hist.reverse.find? (fun e => e.2.isNormal) =
      (specLastNormal hist.reverse.reverse).map (fun e => (e.1, Bid.normal e.2.1 e.2.2)) from
    find_normal_eq_spec hist.reverse, List.reverse_reverse]
  cases specLastNormal hist <;> rfl

/-- The source's NORMAL-bid comparison agrees with the spec's
level-then-strain-rank strict order on Normal bids. -/
theorem gt_normal_eq_spec (l : Nat) (d : Denom) (l0 : Nat) (d0 : Denom) :
    Bid.gt (.normal l d) (.normal l0 d0) =
      decide (l0 < l ∨ (l0 = l ∧ Denom.rank d0 < Denom.rank d)) := by
  unfold Bid.gt Bid.lt
  by_cases h1 : l0 < l
  · simp [h1]
    omega
  · by_cases h2 : l < l0
    · simp [h1, h2]
      omega
    · have hl : l0 = l := by omega
      subst hl
      by_cases h3 : Denom.rank d < Denom.rank d0 <;>
        by_cases h4 : Denom.rank d0 < Denom.rank d <;>
        cases d <;> cases d0 <;> simp_all [Denom.rank]

/-- Under the bookkeeping invariant, the source's `is_valid_bid` computes
exactly the spec's `is_legal` relation. -/
theorem is_valid_bid_eq_spec (st : GameState) (b : Bid) (h : BidInv st) :
    is_valid_bid st b = spec_is_legal st.bidding_history st.double_status st.current_bidder b := by
  unfold BidInv at h
  unfold is_valid_bid spec_is_legal
  cases b with
  | pass => rfl
  | normal l d =>
    cases hs : specLastNormal st.bidding_history with
    | none =>
      rw [h, hs]
      rfl
    | some e =>
      obtain ⟨q, l0, d0⟩ := e
      rw [h, hs]
      exact gt_normal_eq_spec l d l0 d0
  | double =>
    rw [lastNormalBidder_eq_spec, h]
    cases hs : specLastNormal st.bidding_history with
    | none => rfl
    | some e =>
      obtain ⟨q, l0, d0⟩ := e
      dsimp only [Option.map]
      by_cases hp : st.current_bidder.val % 2 = q.val % 2
      · simp [hp]
      · simp [hp]
  | redouble =>
    rw [lastNormalBidder_eq_spec]
    cases hs : specLastNormal st.bidding_history with
    | none =>
      dsimp only [Option.map]
      cases st.double_status <;> rfl
    | some e =>
      obtain ⟨q, l0, d0⟩ := e
      dsimp only [Option.map]
      cases st.double_status <;> rfl

/-- States reachable by driving a fresh game through the engine's mutating
operations. -/
inductive Reachable : GameState → Prop where
  | init (hands : Fin 4 → List Card) : Reachable (initState hands)
  | bid (st : GameState) (p : Fin 4) (b : Bid) :
      Reachable st → Reachable (place_bid st p b).2
  | bidStr (st : GameState) (p : Fin 4) (s : List Char) :
      Reachable st → Reachable (place_bid_str st p s).2
  | play (st : GameState) (p : Fin 4) (c : Card) :
      Reachable st → Reachable (play_card st p c).2

theorem bidInv_play_card (st : GameState) (p : Fin 4) (c : Card) (h : BidInv st) :
    BidInv (play_card st p c).2 := by
  unfold BidInv at h ⊢
  rw [(play_card_fields st p c).1, (play_card_fields st p c).2.1]
  exact h

theorem bidInv_place_bid_str (st : GameState) (p : Fin 4) (s : List Char) (h : BidInv st) :
    BidInv (place_bid_str st p s).2 := by
  unfold place_bid_str
  split_ifs
  · exact h
  · cases Bid.from_string s with
    | error e => exact h
    | ok b => exact bidInv_place_bid st p b h

/-- Every reachable state satisfies the auction bookkeeping invariant. -/
theorem reachable_bidInv (st : GameState) (h : Reachable st) : BidInv st := by
  induction h with
  | init hands => rfl
  | bid st p b _ ih => exact bidInv_place_bid st p b ih
  | bidStr st p s _ ih => exact bidInv_place_bid_str st p s ih
  | play st p c _ ih => exact bidInv_play_card st p c ih



/-- Invariant of the no-trump winner fold: either nothing of the led suit
has been seen and the accumulator is still the `(-1, None)` sentinel, or
the accumulator holds a maximal led-suit play of the plays seen so far. -/
def NTRes (led : Suit) (l : List (Fin 4 × Card)) (res : Int × Option (Fin 4)) : Prop :=
  (res.1 = -1 ∧ res.2 = Option.none ∧ ∀ q ∈ l, q.2.suit ≠ led) ∨
  (∃ p c2, (p, c2) ∈ l ∧ c2.suit = led ∧ res.1 = (c2.value : Int) ∧ res.2 = some p ∧
    ∀ q ∈ l, q.2.suit = led → q.2.value ≤ c2.value)

theorem ntStep_inv (led : Suit) (l0 : List (Fin 4 × Card)) (acc : Int × Option (Fin 4))
    (e : Fin 4 × Card) (h : NTRes led l0 acc) :
    NTRes led (l0 ++ [e]) (ntStep led acc e) := by
  obtain ⟨ep, ec⟩ := e
  unfold ntStep
  dsimp only
  by_cases he : ec.suit = led
  · rw [if_pos he]
    by_cases hrepl : acc.1 = -1 ∨ (ec.value : Int) > acc.1
    · rw [if_pos hrepl]
      right
      refine ⟨ep, ec, by simp, he, rfl, rfl, ?_⟩
      intro q hq hqs
      rcases List.mem_append.mp hq with hql | hqe
      · rcases h with ⟨hacc, -, hnone⟩ | ⟨p, c2, hmem, hcs, hacc, -, hmax⟩
        · exact absurd hqs (hnone q hql)
        · have h1 : q.2.value ≤ c2.value := hmax q hql hqs
          rcases hrepl with hs | hgt
          · rw [hacc] at hs
            omega
          · rw [hacc] at hgt
            omega
      · simp only [List.mem_singleton] at hqe
        subst hqe
        dsimp only
        omega
    · rw [if_neg hrepl]
      rcases h with ⟨hacc, -, -⟩ | ⟨p, c2, hmem, hcs, hacc, hval, hmax⟩
      · exact absurd (Or.inl hacc) hrepl
      · right
        refine ⟨p, c2, List.mem_append.mpr (Or.inl hmem), hcs, hacc, hval, ?_⟩
        intro q hq hqs
        rcases List.mem_append.mp hq with hql | hqe
        · exact hmax q hql hqs
        · simp only [List.mem_singleton] at hqe
          subst hqe
          dsimp only
          have hng : ¬((ec.value : Int) > acc.1) := fun hg => hrepl (Or.inr hg)
          rw [hacc] at hng
          omega
  · rw [if_neg he]
    rcases h with ⟨hacc, hval, hnone⟩ | ⟨p, c2, hmem, hcs, hacc, hval, hmax⟩
    · left
      refine ⟨hacc, hval, ?_⟩
      intro q hq
      rcases List.mem_append.mp hq with hql | hqe
      · exact hnone q hql
      · simp only [List.mem_singleton] at hqe
        subst hqe
        exact he
    · right
      refine ⟨p, c2, List.mem_append.mpr (Or.inl hmem), hcs, hacc, hval, ?_⟩
      intro q hq hqs
      rcases List.mem_append.mp hq with hql | hqe
      · exact hmax q hql hqs
      · simp only [List.mem_singleton] at hqe
        subst hqe
        exact absurd hqs he

theorem ntFold_inv (led : Suit) (l : List (Fin 4 × Card)) :
    ∀ (l0 : List (Fin 4 × Card)) (acc : Int × Option (Fin 4)), NTRes led l0 acc →
      NTRes led (l0 ++ l) (l.foldl (ntStep led) acc) := by
  induction l with
  | nil =>
    intro l0 acc h
    simpa using h
  | cons e t ih =>
    intro l0 acc h
    rw [List.foldl_cons]
    have := ih (l0 ++ [e]) (ntStep led acc e) (ntStep_inv led l0 acc e h)
    simpa using this

theorem ntFold_spec (led : Suit) (l : List (Fin 4 × Card)) :
    NTRes led l (l.foldl (ntStep led) (-1, Option.none)) := by
  have := ntFold_inv led l [] (-1, Option.none) (Or.inl ⟨rfl, rfl, by simp⟩)
  simpa using this



/-- Invariant of the trump-branch winner fold: the first accumulator pair
tracks a maximal trump play, the second a maximal play that is of the led
suit but not a trump (the source's `elif`). -/
def TRes (ts led : Suit) (l : List (Fin 4 × Card))
    (res : Int × Option (Fin 4) × Int × Option (Fin 4)) : Prop :=
  ((res.1 = -1 ∧ res.2.1 = Option.none ∧ ∀ q ∈ l, q.2.suit ≠ ts) ∨
    (∃ p c2, (p, c2) ∈ l ∧ c2.suit = ts ∧ res.1 = (c2.value : Int) ∧ res.2.1 = some p ∧
      ∀ q ∈ l, q.2.suit = ts → q.2.value ≤ c2.value)) ∧
  ((res.2.2.1 = -1 ∧ res.2.2.2 = Option.none ∧ ∀ q ∈ l, q.2.suit ≠ ts → q.2.suit ≠ led) ∨
    (∃ p c2, (p, c2) ∈ l ∧ c2.suit ≠ ts ∧ c2.suit = led ∧ res.2.2.1 = (c2.value : Int) ∧
      res.2.2.2 = some p ∧ ∀ q ∈ l, q.2.suit ≠ ts → q.2.suit = led → q.2.value ≤ c2.value))

theorem trumpStep_inv (ts led : Suit) (l0 : List (Fin 4 × Card))
    (acc : Int × Option (Fin 4) × Int × Option (Fin 4))
    (e : Fin 4 × Card) (h : TRes ts led l0 acc) :
    TRes ts led (l0 ++ [e]) (trumpStep ts led acc e) := by
  obtain ⟨ep, ec⟩ := e
  obtain ⟨htr, hld⟩ := h
  unfold trumpStep
  obtain ⟨htv, tw, hlv, lw⟩ := acc
  dsimp only
  dsimp only at htr hld
  by_cases he : ec.suit = ts
  · rw [if_pos he]
    constructor
    case pos.left =>
      split_ifs with hgt
      · -- new maximal trump
        right
        refine ⟨ep, ec, by simp, he, rfl, rfl, ?_⟩
        intro q hq hqs
        rcases List.mem_append.mp hq with hql | hqe
        · rcases htr with ⟨h1, -, h3⟩ | ⟨p, c2, hmem, hcs, h1, -, h3⟩
          · exact absurd hqs (h3 q hql)
          · have := h3 q hql hqs
            rw [h1] at hgt
            omega
        · simp only [List.mem_singleton] at hqe
          subst hqe
          dsimp only
          omega
      · -- kept trump accumulator
        dsimp only
        rcases htr with ⟨h1, -, -⟩ | ⟨p, c2, hmem, hcs, h1, h2, h3⟩
        · exfalso
          rw [h1] at hgt
          have : ((ec.value : Int)) ≥ 0 := Int.ofNat_nonneg ec.value
          omega
        · right
          refine ⟨p, c2, List.mem_append.mpr (Or.inl hmem), hcs, h1, h2, ?_⟩
          intro q hq hqs
          rcases List.mem_append.mp hq with hql | hqe
          · exact h3 q hql hqs
          · simp only [List.mem_singleton] at hqe
            subst hqe
            dsimp only
            rw [h1] at hgt
            omega
    case pos.right =>
      -- the led-suit component ignores trump cards
      split_ifs with hgt
      all_goals (
        rcases hld with ⟨h1, h2, h3⟩ | ⟨p, c2, hmem, hcs, hcl, h1, h2, h3⟩
        · left
          refine ⟨h1, h2, ?_⟩
          intro q hq hqt
          rcases List.mem_append.mp hq with hql | hqe
          · exact h3 q hql hqt
          · simp only [List.mem_singleton] at hqe
            subst hqe
            exact absurd he hqt
        · right
          refine ⟨p, c2, List.mem_append.mpr (Or.inl hmem), hcs, hcl, h1, h2, ?_⟩
          intro q hq hqt hqled
          rcases List.mem_append.mp hq with hql | hqe
          · exact h3 q hql hqt hqled
          · simp only [List.mem_singleton] at hqe
            subst hqe
            exact absurd he hqt)
  · rw [if_neg he]
    by_cases hel : ec.suit = led
    · rw [if_pos hel]
      constructor
      case pos.left =>
        -- the trump component ignores non-trump cards
        split_ifs with hgt
        all_goals (
          rcases htr with ⟨h1, h2, h3⟩ | ⟨p, c2, hmem, hcs, h1, h2, h3⟩
          · left
            refine ⟨h1, h2, ?_⟩
            intro q hq
            rcases List.mem_append.mp hq with hql | hqe
            · exact h3 q hql
            · simp only [List.mem_singleton] at hqe
              subst hqe
              exact he
          · right
            refine ⟨p, c2, List.mem_append.mpr (Or.inl hmem), hcs, h1, h2, ?_⟩
            intro q hq hqs
            rcases List.mem_append.mp hq with hql | hqe
            · exact h3 q hql hqs
            · simp only [List.mem_singleton] at hqe
              subst hqe
              exact absurd hqs he)
      case pos.right =>
        split_ifs with hgt
        · right
          refine ⟨ep, ec, by simp, he, hel, rfl, rfl, ?_⟩
          intro q hq hqt hqled
          rcases List.mem_append.mp hq with hql | hqe
          · rcases hld with ⟨h1, -, h3⟩ | ⟨p, c2, hmem, hcs, hcl, h1, h2, h3⟩
            · exact absurd hqled (h3 q hql hqt)
            · have := h3 q hql hqt hqled
              rw [h1] at hgt
              omega
          · simp only [List.mem_singleton] at hqe
            subst hqe
            dsimp only
            omega
        · dsimp only
          rcases hld with ⟨h1, -, -⟩ | ⟨p, c2, hmem, hcs, hcl, h1, h2, h3⟩
          · exfalso
            rw [h1] at hgt
            have : ((ec.value : Int)) ≥ 0 := Int.ofNat_nonneg ec.value
            omega
          · right
            refine ⟨p, c2, List.mem_append.mpr (Or.inl hmem), hcs, hcl, h1, h2, ?_⟩
            intro q hq hqt hqled
            rcases List.mem_append.mp hq with hql | hqe
            · exact h3 q hql hqt hqled
            · simp only [List.mem_singleton] at hqe
              subst hqe
              dsimp only
              rw [h1] at hgt
              omega
    · rw [if_neg hel]
      constructor
      case neg.left =>
        rcases htr with ⟨h1, h2, h3⟩ | ⟨p, c2, hmem, hcs, h1, h2, h3⟩
        · left
          refine ⟨h1, h2, ?_⟩
          intro q hq
          rcases List.mem_append.mp hq with hql | hqe
          · exact h3 q hql
          · simp only [List.mem_singleton] at hqe
            subst hqe
            exact he
        · right
          refine ⟨p, c2, List.mem_append.mpr (Or.inl hmem), hcs, h1, h2, ?_⟩
          intro q hq hqs
          rcases List.mem_append.mp hq with hql | hqe
          · exact h3 q hql hqs
          · simp only [List.mem_singleton] at hqe
            subst hqe
            exact absurd hqs he
      case neg.right =>
        rcases hld with ⟨h1, h2, h3⟩ | ⟨p, c2, hmem, hcs, hcl, h1, h2, h3⟩
        · left
          refine ⟨h1, h2, ?_⟩
          intro q hq
          rcases List.mem_append.mp hq with hql | hqe
          · exact h3 q hql
          · simp only [List.mem_singleton] at hqe
            subst hqe
            intro _
            exact hel
        · right
          refine ⟨p, c2, List.mem_append.mpr (Or.inl hmem), hcs, hcl, h1, h2, ?_⟩
          intro q hq hqt hqled
          rcases List.mem_append.mp hq with hql | hqe
          · exact h3 q hql hqt hqled
          · simp only [List.mem_singleton] at hqe
            subst hqe
            exact absurd hqled hel

theorem trumpFold_inv (ts led : Suit) (l : List (Fin 4 × Card)) :
    ∀ (l0 : List (Fin 4 × Card)) (acc : Int × Option (Fin 4) × Int × Option (Fin 4)),
      TRes ts led l0 acc →
      TRes ts led (l0 ++ l) (l.foldl (trumpStep ts led) acc) := by
  induction l with
  | nil =>
    intro l0 acc h
    simpa using h
  | cons e t ih =>
    intro l0 acc h
    rw [List.foldl_cons]
    have := ih (l0 ++ [e]) (trumpStep ts led acc e) (trumpStep_inv ts led l0 acc e h)
    simpa using this

theorem trumpFold_spec (ts led : Suit) (l : List (Fin 4 × Card)) :
    TRes ts led l (l.foldl (trumpStep ts led) (-1, Option.none, -1, Option.none)) := by
  have := trumpFold_inv ts led l [] (-1, Option.none, -1, Option.none)
    ⟨Or.inl ⟨rfl, rfl, by simp⟩, Or.inl ⟨rfl, rfl, by simp⟩⟩
  simpa using this



/-! ### The claims -/

set_option maxRecDepth 10000 in
/-- Claim C1 (evaluation of the code at the failing input): playing out a
complete hand — the `handsBySuit` deal under the 1NT contract, 13 resolved
tricks, all four hands empty at the end — leaves a per-partnership tally of
`(0, 0)`.  The scoring step does not credit one increment per resolved
trick (all 13 tricks were won by South, partnership 0), because the
`winner` key `_score_hand` looks for is never written into
`game_history`, so both counts stay zero and do not sum to 13. -/
theorem c1_completed_hand_tally_zero :
    stFinal.current_state = .game_over ∧
    (∀ i : Fin 4, stFinal.hands i = []) ∧
    stFinal.game_history.length = 52 ∧
    stFinal.scores = some (0, 0) :=
  ⟨by rfl, by decide, by rfl, by rfl⟩

set_option maxRecDepth 10000 in
/-- Claim C2 (counterexample): in the reachable state after the auction
1♥–Pass–Pass–Pass (declarer South, so the designated opening leader is
West, seat 1), the current trick is empty, yet a lead by seat 3 — neither
the spec's opening leader 1 nor the engine's `current_player` 0 — is
accepted, not rejected. -/
theorem c2_first_trick_foreign_lead_accepted :
    st1H.trick = [] ∧ st1H.declarer = some 0 ∧ st1H.current_player = 0 ∧
    (play_card st1H 3 ⟨.C, 2⟩).1 = true :=
  ⟨by rfl, by rfl, by rfl, by rfl⟩

/-- Claim C2 (amended): the lead-rights check only exists once a previous
trick winner is recorded: whenever the current trick is empty and
`last_trick_winner` is some seat `w`, a play by any seat other than `w` is
rejected with the state unchanged, regardless of hand contents; on the
first trick of a hand (`last_trick_winner` still absent) no seat is
barred from leading. -/
theorem c2_lead_rights_after_first_trick (st : GameState) (p : Fin 4) (c : Card)
    (w : Fin 4) (ht : st.trick = []) (hw : st.last_trick_winner = some w) (hp : p ≠ w) :
    play_card st p c = (false, st) := by
  unfold play_card
  split_ifs <;> simp_all

/-- Witness for C2's amended theorem at a concrete state: with the last
trick won by seat 1, a lead attempt by seat 0 is rejected. -/
theorem c2_lead_rights_witness :
    play_card
      { initState handsBySuit with current_state := .playing, last_trick_winner := some 1 }
      0 ⟨.S, 2⟩ =
      (false,
        { initState handsBySuit with current_state := .playing, last_trick_winner := some 1 }) :=
  c2_lead_rights_after_first_trick _ 0 ⟨.S, 2⟩ 1 rfl rfl (by decide)

set_option maxRecDepth 10000 in
/-- Claim C3 (counterexample): after the universal-pass auction the
contract is absent, but the engine is in the `playing` state and a
subsequent `play_card` is accepted — the hand does produce a play phase. -/
theorem c3_play_accepted_after_universal_pass :
    stAllPass.contract = Option.none ∧ stAllPass.current_state = .playing ∧
    (play_card stAllPass 0 ⟨.S, 2⟩).1 = true :=
  ⟨by rfl, by rfl, by rfl⟩

/-- Claim C3 (amended): if the auction's first four calls are all Pass,
the auction resolves with contract, declarer and dummy all absent — but
the engine still transitions to the `playing` state, and a subsequent
`play_card` of a held card is accepted (the repository's own test asserts
the `playing` transition). -/
theorem c3_universal_pass_resolution (hands : Fin 4 → List Card) :
    (runBids (initState hands) fourPasses).contract = Option.none ∧
    (runBids (initState hands) fourPasses).declarer = Option.none ∧
    (runBids (initState hands) fourPasses).dummy = Option.none ∧
    (runBids (initState hands) fourPasses).current_state = .playing ∧
    ∀ c : Card, c ∈ hands 0 →
      (play_card (runBids (initState hands) fourPasses) 0 c).1 = true := by
  rw [runBids_fourPasses]
  refine ⟨rfl, rfl, rfl, rfl, ?_⟩
  intro c hc
  apply play_card_fst_of_guards
  · rfl
  · simp [initState]
  · simp [initState]
  · exact hc
  · rfl

/-- Witness for C3's amended theorem at the concrete `handsBySuit` deal. -/
theorem c3_universal_pass_witness :
    (runBids (initState handsBySuit) fourPasses).contract = Option.none ∧
    (play_card (runBids (initState handsBySuit) fourPasses) 0 ⟨.S, 2⟩).1 = true :=
  ⟨(c3_universal_pass_resolution handsBySuit).1,
    (c3_universal_pass_resolution handsBySuit).2.2.2.2 ⟨.S, 2⟩ (by decide)⟩

/-- Claim C4: in the bidding state, on the current bidder's turn, a call
is accepted by `place_bid` if and only if it is legal per the spec's
`is_legal` rules (Pass always; Normal iff strictly greater than the last
Normal bid, if any, under level-then-strain order; Double iff an opposing
last Normal bid exists and the status is undoubled; Redouble iff doubled
and the last Normal bid came from the bidder's own partnership). -/
theorem c4_accept_iff_spec_legal (st : GameState) (b : Bid) (hr : Reachable st)
    (hb : st.current_state = .bidding) :
    (place_bid st st.current_bidder b).1 = true ↔
      spec_is_legal st.bidding_history st.double_status st.current_bidder b = true := by
  rw [← is_valid_bid_eq_spec st b (reachable_bidInv st hr)]
  have hG : ¬(st.current_state ≠ .bidding ∨ st.current_bidder ≠ st.current_bidder) := by
    simp [hb]
  cases hv : is_valid_bid st b with
  | false => rw [place_bid_invalid_rejects st st.current_bidder b hG hv]
  | true => simp [(place_bid_accepted_fields st st.current_bidder b hG hv).1]

/-- Witness for C4 at the fresh `handsBySuit` deal and a Pass call. -/
theorem c4_accept_iff_witness :
    (place_bid (initState handsBySuit) (initState handsBySuit).current_bidder .pass).1 = true ↔
      spec_is_legal (initState handsBySuit).bidding_history
        (initState handsBySuit).double_status (initState handsBySuit).current_bidder .pass
        = true :=
  c4_accept_iff_spec_legal (initState handsBySuit) .pass (Reachable.init handsBySuit) rfl

/-- Claim C5: for a complete trick of four plays led by `f`: if the
contract names a trump suit and at least one trump was played, the winner
is a seat that played a trump card of maximal rank among the trumps
played; otherwise the winner is a seat that played a card of the led suit
of maximal rank among the led-suit cards (cards of other suits never
win); rank comparison is within-suit by numeric value, Ace = 14 high. -/
theorem c5_trick_winner_correct (contract : Option (List Char)) (f : Fin 4 × Card)
    (r : List (Fin 4 × Card)) (h4 : (f :: r).length = 4) :
    (∀ ts, trumpOfContract contract = some ts → (∃ q ∈ f :: r, q.2.suit = ts) →
      ∃ w wc, determine_trick_winner contract (f :: r) = some w ∧ (w, wc) ∈ f :: r ∧
        wc.suit = ts ∧ ∀ q ∈ f :: r, q.2.suit = ts → q.2.value ≤ wc.value) ∧
    ((∀ ts, trumpOfContract contract = some ts → ∀ q ∈ f :: r, q.2.suit ≠ ts) →
      ∃ w wc, determine_trick_winner contract (f :: r) = some w ∧ (w, wc) ∈ f :: r ∧
        wc.suit = f.2.suit ∧ ∀ q ∈ f :: r, q.2.suit = f.2.suit → q.2.value ≤ wc.value) := by
  constructor
  · intro ts hts ⟨q0, hq0, hq0s⟩
    unfold determine_trick_winner
    dsimp only
    rw [if_neg (by simp [h4] : ¬(f :: r).length ≠ 4), hts]
    dsimp only
    rcases trumpFold_spec ts f.2.suit (f :: r) with ⟨htr, -⟩
    rcases htr with ⟨-, -, h3⟩ | ⟨p, c2, hmem, hcs, -, h2, h3⟩
    · exact absurd hq0s (h3 q0 hq0)
    · rw [h2]
      exact ⟨p, c2, rfl, hmem, hcs, h3⟩
  · intro hnt
    unfold determine_trick_winner
    dsimp only
    rw [if_neg (by simp [h4] : ¬(f :: r).length ≠ 4)]
    cases htc : trumpOfContract contract with
    | none =>
      dsimp only
      rcases ntFold_spec f.2.suit (f :: r) with ⟨-, -, h3⟩ | ⟨p, c2, hmem, hcs, -, h2, h3⟩
      · exact absurd rfl (h3 f (by simp))
      · rw [h2]
        exact ⟨p, c2, rfl, hmem, hcs, h3⟩
    | some ts =>
      dsimp only
      rcases trumpFold_spec ts f.2.suit (f :: r) with ⟨htr, hld⟩
      rcases htr with ⟨-, h2, -⟩ | ⟨p, c2, hmem, hcs, -, -, -⟩
      · rw [h2]
        rcases hld with ⟨-, -, h3⟩ | ⟨p, c2, hmem, hcst, hcl, -, h2l, h3⟩
        · exact absurd rfl (h3 f (by simp) (hnt ts htc f (by simp)))
        · rw [h2l]
          refine ⟨p, c2, rfl, hmem, hcl, ?_⟩
          intro q hq hqled
          exact h3 q hq (hnt ts htc q hq) hqled
      · exact absurd hcs (hnt ts htc (p, c2) hmem)

/-- Witness for C5 at a concrete trick: Spades trump, a Heart led, one
Spade played — the conclusions hold at that trick. -/
theorem c5_trick_winner_witness :
    (∀ ts, trumpOfContract (some ['1', 'S']) = some ts →
      (∃ q ∈ [((0 : Fin 4), Card.mk .H 5), (1, .mk .S 2), (2, .mk .H 14), (3, .mk .H 3)],
        q.2.suit = ts) →
      ∃ w wc,
        determine_trick_winner (some ['1', 'S'])
          [((0 : Fin 4), Card.mk .H 5), (1, .mk .S 2), (2, .mk .H 14), (3, .mk .H 3)] = some w ∧
        (w, wc) ∈ [((0 : Fin 4), Card.mk .H 5), (1, .mk .S 2), (2, .mk .H 14), (3, .mk .H 3)] ∧
        wc.suit = ts ∧
        ∀ q ∈ [((0 : Fin 4), Card.mk .H 5), (1, .mk .S 2), (2, .mk .H 14), (3, .mk .H 3)],
          q.2.suit = ts → q.2.value ≤ wc.value) ∧
    ((∀ ts, trumpOfContract (some ['1', 'S']) = some ts →
      ∀ q ∈ [((0 : Fin 4), Card.mk .H 5), (1, .mk .S 2), (2, .mk .H 14), (3, .mk .H 3)],
        q.2.suit ≠ ts) →
      ∃ w wc,
        determine_trick_winner (some ['1', 'S'])
          [((0 : Fin 4), Card.mk .H 5), (1, .mk .S 2), (2, .mk .H 14), (3, .mk .H 3)] = some w ∧
        (w, wc) ∈ [((0 : Fin 4), Card.mk .H 5), (1, .mk .S 2), (2, .mk .H 14), (3, .mk .H 3)] ∧
        wc.suit = (Card.mk Suit.H 5).suit ∧
        ∀ q ∈ [((0 : Fin 4), Card.mk .H 5), (1, .mk .S 2), (2, .mk .H 14), (3, .mk .H 3)],
          q.2.suit = (Card.mk Suit.H 5).suit → q.2.value ≤ wc.value) :=
  c5_trick_winner_correct (some ['1', 'S']) (0, .mk .H 5)
    [(1, .mk .S 2), (2, .mk .H 14), (3, .mk .H 3)] (by rfl)

set_option maxRecDepth 10000 in
/-- Claim C6 (evaluation of the code at the failing input): the auction
1♥–Pass–Pass–Pass yields contract "1H", declarer South (the caller),
dummy North (caller's partner) — but the engine's `current_player` at the
start of the play phase is 0, not `(declarer + 1) % 4 = 1`:
`_finalize_contract` does set the declarer's left-hand opponent as leader,
and the turn-advancement line at the end of `place_bid` then overwrites it
with the seat after the final passer. -/
theorem c6_opening_leader_clobbered :
    st1H.contract = some ['1', 'H'] ∧ st1H.declarer = some 0 ∧ st1H.dummy = some 2 ∧
    st1H.current_state = .playing ∧ st1H.current_player = 0 ∧ st1H.current_player ≠ 1 :=
  ⟨by rfl, by rfl, by rfl, by rfl, by rfl, by decide⟩

/-- Claim C7: for a non-lead `play_card` in the playing phase, on the
current player's turn, with the card held: the play is accepted if and
only if the follow-suit rule allows it — when the hand still holds a card
of the led suit the played card's suit must equal the led suit, and a
hand void in the led suit may play anything. -/
theorem c7_follow_suit (st : GameState) (p : Fin 4) (c : Card) (f : Fin 4 × Card)
    (r : List (Fin 4 × Card))
    (htr : st.trick = f :: r) (hmem : c ∈ st.hands p)
    (hturn : p = st.current_player) (hph : st.current_state = .playing) :
    (play_card st p c).1 = true ↔
      ((st.hands p).any (fun x => x.suit == f.2.suit) = true → c.suit = f.2.suit) := by
  constructor
  · intro hacc hany
    by_contra hne
    have hv : is_valid_play st p c = false := by
      unfold is_valid_play
      rw [htr]
      simp only [hany, if_true]
      simpa using hne
    have hrej : (play_card st p c).1 = false := by
      unfold play_card
      rw [if_neg (by simp [hph]), if_neg (by simp [htr]), if_neg (by simp [hturn]),
        if_neg (by simp [hmem]), if_pos (by simp [hv])]
    simp [hrej] at hacc
  · intro hfollow
    apply play_card_fst_of_guards st p c hph (by simp [htr]) (by simp [hturn]) hmem
    unfold is_valid_play
    rw [htr]
    dsimp only
    cases hany : (st.hands p).any (fun x => x.suit == f.2.suit) with
    | true => simp [hfollow hany]
    | false => simp

/-- Witness for C7 at a concrete state: a Heart is led, South's hand is
all Spades (void in Hearts), so South's play of a Spade is accepted. -/
theorem c7_follow_suit_witness :
    (play_card
      { initState handsBySuit with
          current_state := .playing, current_player := 0,
          trick := [(3, ⟨.H, 7⟩)] }
      0 ⟨.S, 2⟩).1 = true ↔
      ((handsBySuit 0).any (fun x => x.suit == Suit.H) = true → Suit.S = Suit.H) :=
  c7_follow_suit _ 0 ⟨.S, 2⟩ (3, ⟨.H, 7⟩) [] rfl (by decide) rfl rfl

/-- Claim C8: formatting then parsing round-trips every constructible bid:
`Bid.from_string (str b) = b` for Pass, Double, Redouble and every Normal
bid with level 1..7 and any of the five strains. -/
theorem c8_bid_roundtrip (b : Bid) (hb : b.Constructible) :
    Bid.from_string (Bid.toStr b) = .ok b := by
  cases b with
  | pass => rfl
  | double => rfl
  | redouble => rfl
  | normal l d =>
    obtain ⟨h1, h2⟩ := hb
    interval_cases l <;> cases d <;> rfl

/-- Witness for C8 at the concrete bid 1NT. -/
theorem c8_bid_roundtrip_witness :
    (Bid.normal 1 .NT).Constructible ∧
    Bid.from_string (Bid.toStr (.normal 1 .NT)) = .ok (.normal 1 .NT) :=
  ⟨by decide, c8_bid_roundtrip (.normal 1 .NT) (by decide)⟩

/-- Claim C9: every rejected `place_bid` (with a structured bid or with a
bid string) and every rejected `play_card` returns `False` and leaves the
entire engine state unchanged; the model is a total function, mirroring
that no exception escapes these calls for seats 0..3. -/
theorem c9_rejection_preserves_state (st : GameState) (p : Fin 4) (b : Bid)
    (s : List Char) (c : Card) :
    ((place_bid st p b).1 = false → (place_bid st p b).2 = st) ∧
    ((place_bid_str st p s).1 = false → (place_bid_str st p s).2 = st) ∧
    ((play_card st p c).1 = false → (play_card st p c).2 = st) :=
  ⟨place_bid_rejected_eq st p b, place_bid_str_rejected_eq st p s,
    play_card_rejected_eq st p c⟩

/-- Witness for C9 at concrete rejected calls: a bid out of turn, an
unparseable bid string, and a card play during the bidding phase. -/
theorem c9_rejection_witness :
    (place_bid (initState handsBySuit) 1 .pass).1 = false ∧
    (place_bid (initState handsBySuit) 1 .pass).2 = initState handsBySuit ∧
    (place_bid_str (initState handsBySuit) 0 ['x']).1 = false ∧
    (place_bid_str (initState handsBySuit) 0 ['x']).2 = initState handsBySuit ∧
    (play_card (initState handsBySuit) 0 ⟨.S, 2⟩).1 = false ∧
    (play_card (initState handsBySuit) 0 ⟨.S, 2⟩).2 = initState handsBySuit :=
  ⟨by rfl,
    (c9_rejection_preserves_state (initState handsBySuit) 1 .pass ['x'] ⟨.S, 2⟩).1 (by rfl),
    by rfl,
    (c9_rejection_preserves_state (initState handsBySuit) 0 .pass ['x'] ⟨.S, 2⟩).2.1 (by rfl),
    by rfl,
    (c9_rejection_preserves_state (initState handsBySuit) 0 .pass ['x'] ⟨.S, 2⟩).2.2 (by rfl)⟩

/-- Claim C10: `place_bid` accepts a raw string wherever a structured bid
is expected: when `Bid.from_string` succeeds on `s` the string call
returns the same result and state as the structured call, and when
parsing fails the string call returns `False` with the state unchanged. -/
theorem c10_place_bid_string_equiv (st : GameState) (p : Fin 4) (s : List Char) :
    (∀ b, Bid.from_string s = .ok b → place_bid_str st p s = place_bid st p b) ∧
    (∀ e, Bid.from_string s = .error e → place_bid_str st p s = (false, st)) := by
  constructor
  · intro b hb
    unfold place_bid_str
    split_ifs with hg
    · unfold place_bid
      rw [if_pos hg]
    · rw [hb]
  · intro e he
    unfold place_bid_str
    split_ifs with hg
    · rfl
    · rw [he]

/-- Witness for C10 at a parsable and an unparsable bid string. -/
theorem c10_place_bid_string_witness :
    place_bid_str (initState handsBySuit) 0 ['1', 'H'] =
      place_bid (initState handsBySuit) 0 (.normal 1 .H) ∧
    place_bid_str (initState handsBySuit) 0 ['x'] = (false, initState handsBySuit) :=
  ⟨(c10_place_bid_string_equiv (initState handsBySuit) 0 ['1', 'H']).1
      (.normal 1 .H) (by rfl),
    (c10_place_bid_string_equiv (initState handsBySuit) 0 ['x']).2 () (by rfl)⟩

end Bridge
